import Mathlib

/-!
Verification of the mission-control task dependency engine
(`packages/mission-control/src/mission_control.py` and `server.py`).

The Python code is shallowly embedded: the JSONL task store becomes a
`Store` (a list of active tasks plus the archive log), the git environment
queried by `save_task` becomes an explicit `GitEnv` argument, and each
Python method becomes a Lean function faithful to its source.  Python
dictionaries built by insertion (`{t.id: t for t in tasks}`) are modelled by
`buildDict`, which keeps the first-insertion position and the last-inserted
value, exactly like CPython dicts.  Python `set(xs)` iteration is modelled
by `xs.dedup` (one occurrence per element; iteration order of a Python set
is unspecified, so any duplicate-free enumeration is a faithful model).
-/

namespace MissionControl

/-- Valid task statuses (`TaskStatus` in the source). -/
inductive TaskStatus where
  | todo
  | in_progress
  | blocked
  | done
deriving DecidableEq, Repr

/-- Git context for a task (`GitMetadata` in the source). -/
structure GitMetadata where
  branch : String
  commit_hash : String
  created_at : String
  updated_at : String
deriving DecidableEq, Repr

/-- A task record (`Task` in the source). -/
structure Task where
  id : String
  title : String
  description : String := ""
  status : TaskStatus := TaskStatus.todo
  depends_on : List String := []
  blocked_by : List String := []
  tags : List String := []
  priority : Nat := 5
  metadata : GitMetadata
deriving DecidableEq, Repr

/-- The two JSONL files of `TaskStorage`: the active log and the archive log. -/
structure Store where
  tasks : List Task
  archive : List Task
deriving DecidableEq, Repr

/-- Values returned by the version-control adapter during `save_task`
(current branch, current short commit, and the current timestamp). -/
structure GitEnv where
  branch : String
  commit_hash : String
  now : String
deriving DecidableEq, Repr

/-- Storage read: `TaskStorage.load_all_tasks`. -/
def load_all_tasks (s : Store) : List Task :=
  s.tasks

/-- Storage read: `TaskStorage.load_task` returns the first active record
with the given id. -/
def load_task (s : Store) (task_id : String) : Option Task :=
  s.tasks.find? (fun t => t.id == task_id)

/-- Metadata refresh performed at the top of `TaskStorage.save_task`:
branch, commit hash and `updated_at` are overwritten from the environment. -/
def refreshMeta (env : GitEnv) (t : Task) : Task :=
  { t with metadata := { t.metadata with
      branch := env.branch
      commit_hash := env.commit_hash
      updated_at := env.now } }

/-- The upsert loop of `TaskStorage.save_task`: replace the first record
with a matching id (and stop), otherwise append at the end. -/
def upsert (tasks : List Task) (t : Task) : List Task :=
  match tasks with
  | [] => [t]
  | u :: rest => if u.id == t.id then t :: rest else u :: upsert rest t

/-- Storage write: `TaskStorage.save_task` refreshes the git metadata and
upserts the record into the active log.  Returns the stored task. -/
def save_task (env : GitEnv) (s : Store) (t : Task) : Store × Task :=
  let t1 := refreshMeta env t
  ({ s with tasks := upsert s.tasks t1 }, t1)

/-- Storage delete: `TaskStorage.delete_task` removes every record with the
given id and reports whether anything was removed. -/
def delete_task (s : Store) (task_id : String) : Store × Bool :=
  let rest := s.tasks.filter (fun t => !(t.id == task_id))
  if rest.length < s.tasks.length then
    ({ s with tasks := rest }, true)
  else (s, false)

/-- Storage archive: `TaskStorage.archive_task` re-reads the record,
appends it to the archive log, then deletes it from the active log. -/
def archive_task (s : Store) (task_id : String) : Store × Bool :=
  match load_task s task_id with
  | none => (s, false)
  | some t =>
      delete_task { s with archive := s.archive ++ [t] } task_id

/-- One insertion into a Python dict keyed by task id: an existing key
keeps its position but receives the new value, a new key is appended. -/
def dictInsert (acc : List Task) (t : Task) : List Task :=
  if acc.any (fun u => u.id == t.id) then
    acc.map (fun u => if u.id == t.id then t else u)
  else acc ++ [t]

/-- The dict `{t.id: t for t in tasks}` built by `DependencyGraph._build_graph`. -/
def buildDict (tasks : List Task) : List Task :=
  tasks.foldl dictInsert []

/-- Dict lookup `task_dict.get(x)`. -/
def dictGet (dict : List Task) (x : String) : Option Task :=
  dict.find? (fun t => t.id == x)

/-- Dict key test `x in task_dict`. -/
def containsId (dict : List Task) (x : String) : Bool :=
  dict.any (fun t => t.id == x)

/-- Blocking dependencies collected by the loop in
`DependencyGraph.get_ready_tasks`: the ids in `depends_on` (in order) whose
referent is missing from the dict or not `done`. -/
def blockingOf (dict : List Task) (t : Task) : List String :=
  t.depends_on.filter (fun dep =>
    match dictGet dict dep with
    | none => true
    | some d => !(d.status == TaskStatus.done))

/-- Readiness test of `get_ready_tasks`: status `todo` and no blocking
dependency. -/
def isReady (dict : List Task) (t : Task) : Bool :=
  t.status == TaskStatus.todo && (blockingOf dict t).isEmpty

/-- Comparison used by `ready.sort(key=lambda t: (-t.priority, t.metadata.created_at))`:
priority descending, then creation timestamp ascending. -/
def readyLE (a b : Task) : Bool :=
  decide (b.priority < a.priority) ||
    (a.priority == b.priority && decide (a.metadata.created_at ≤ b.metadata.created_at))

/-- Graph query `DependencyGraph.get_ready_tasks` (the engine behind
`MissionControl.list_ready_work`): the `todo` tasks of the dict whose
dependencies are all present and `done`, stably sorted by `readyLE`.
Ready tasks are appended as loaded; only non-ready tasks have their
`blocked_by` mutated (see `examinedTasks`). -/
def get_ready_tasks (tasks : List Task) : List Task :=
  let dict := buildDict tasks
  (dict.filter (isReady dict)).mergeSort readyLE

/-- In-memory effect of the `get_ready_tasks` loop on the task objects of
the dict: a non-ready `todo` task gets `blocked_by := blockingOf`, every
other task is left untouched.  (The mutation only changes `blocked_by`,
which `blockingOf` never reads, so using the original dict is faithful.) -/
def examinedTasks (tasks : List Task) : List Task :=
  let dict := buildDict tasks
  dict.map (fun t =>
    if t.status == TaskStatus.todo && !(blockingOf dict t).isEmpty then
      { t with blocked_by := blockingOf dict t }
    else t)

/-- Graph query `DependencyGraph.get_dependents`: the active tasks whose
`depends_on` mentions the given id. -/
def get_dependents (tasks : List Task) (task_id : String) : List Task :=
  (buildDict tasks).filter (fun t => t.depends_on.contains task_id)

/-- Facade mutation `MissionControl.update_task_status`: load, set status,
save, and (when `auto_archive` and the new status is `done` and there are
no dependents) archive. -/
def update_task_status (env : GitEnv) (s : Store) (task_id : String)
    (status : TaskStatus) (auto_archive : Bool) : Store × Option Task :=
  match load_task s task_id with
  | none => (s, none)
  | some t =>
      let r := save_task env s { t with status := status }
      if auto_archive && (status == TaskStatus.done) then
        if (get_dependents r.1.tasks task_id).isEmpty then
          ((archive_task r.1 task_id).1, some r.2)
        else (r.1, some r.2)
      else (r.1, some r.2)

/-- Result object built by the tool handler `handle_delete_task` in
`server.py` (the JSON payload, field for field). -/
structure DeleteToolResult where
  success : Bool
  error : Option String
  dependent_tasks : Option (List (String × String))
  message : Option String
deriving DecidableEq, Repr

/-- Tool handler `handle_delete_task`: refuses when dependents exist,
otherwise delegates to `MissionControl.delete_task` (which is
`TaskStorage.delete_task`, modelled by `delete_task`). -/
def handle_delete_task (s : Store) (task_id : String) : Store × DeleteToolResult :=
  let dependents := get_dependents s.tasks task_id
  if !dependents.isEmpty then
    (s, { success := false
          error := some ("Cannot delete task " ++ task_id ++ " - " ++
            toString dependents.length ++ " task(s) depend on it")
          dependent_tasks := some (dependents.map (fun t => (t.id, t.title)))
          message := none })
  else
    let r := delete_task s task_id
    (r.1, { success := r.2
            error := none
            dependent_tasks := none
            message := some (if r.2 then "Deleted task " ++ task_id
              else "Task " ++ task_id ++ " not found") })

/-- Neighbour list `adj.get(node, set())` of `_build_graph`: the
dependency set of the dict entry for `node` (empty for unknown nodes). -/
def neighbors (dict : List Task) (node : String) : List String :=
  match dictGet dict node with
  | some t => t.depends_on.dedup
  | none => []

/-- DFS colors of `check_consistency`. -/
inductive Color where
  | white
  | gray
  | black
deriving DecidableEq, Repr

/-- Color assignment, a total map (only dict ids are ever consulted). -/
def updColor (c : String → Color) (x : String) (v : Color) : String → Color :=
  fun y => if y == x then v else c y

/-- Outcome of one `dfs(node, path)` call in `check_consistency`:
a normal return (the boolean result plus the mutated path, colors and
cycle list), the uncaught `ValueError` raised by `path.index(neighbor)`
when the neighbor is not on the current path, or fuel exhaustion (never
reached with fuel above the recursion depth). -/
inductive DfsStep where
  | ret (found : Bool) (path : List String) (color : String → Color) (cycles : List String)
  | err
  | fuelOut

/-- Cycle message `"Circular dependency detected: id1 -> ... -> id1"`. -/
def cycleMsg (cycle : List String) : String :=
  "Circular dependency detected: " ++ String.intercalate " -> " cycle

/-- The recursive `dfs` of `DependencyGraph.check_consistency`.  Grays the
node, walks its neighbours in order (skipping ids outside the dict); a gray
neighbour records the cycle sliced from the current path — raising
`ValueError` when the neighbour is *not* on the current path, which happens
when a previous aborted traversal left it gray — a white neighbour recurses,
and on normal completion the node is blackened and popped. -/
def dfsCheck (dict : List Task) : Nat → String → List String →
    (String → Color) → List String → DfsStep
  | 0, _, _, _, _ => DfsStep.fuelOut
  | Nat.succ n, node, path0, color0, cycles0 =>
      let start := DfsStep.ret false (path0 ++ [node])
        (updColor color0 node Color.gray) cycles0
      let out := (neighbors dict node).foldl
        (fun acc nb =>
          match acc with
          | DfsStep.ret false p c cy =>
              if containsId dict nb then
                if c nb == Color.gray then
                  match p.findIdx? (fun x => x == nb) with
                  | none => DfsStep.err
                  | some i =>
                      DfsStep.ret true p c (cy ++ [cycleMsg (p.drop i ++ [nb])])
                else if c nb == Color.white then
                  dfsCheck dict n nb p c cy
                else DfsStep.ret false p c cy
              else DfsStep.ret false p c cy
          | e => e)
        start
      match out with
      | DfsStep.ret false p c cy =>
          DfsStep.ret false p.dropLast (updColor c node Color.black) cy
      | e => e

/-- The top-level loop of `check_consistency`: start a DFS (with a fresh
empty path) from every still-white dict id, discarding the boolean result
but keeping colors and recorded cycles. -/
def consTop (dict : List Task) : List String → (String → Color) → List String → DfsStep
  | [], color, cycles => DfsStep.ret false [] color cycles
  | tid :: rest, color, cycles =>
      if color tid == Color.white then
        match dfsCheck dict (dict.length + 1) tid [] color cycles with
        | DfsStep.ret _ _ c cy => consTop dict rest c cy
        | e => e
      else consTop dict rest color cycles

/-- The dangling-reference pass of `check_consistency`. -/
def missingDepErrors (dict : List Task) : List String :=
  dict.flatMap (fun t =>
    (t.depends_on.filter (fun dep => !(containsId dict dep))).map
      (fun dep => "Task '" ++ t.id ++ "' depends on non-existent task '" ++
        dep ++ "'"))

/-- Overall result of `check_consistency`: the returned pair, or the
uncaught `ValueError` escaping from `dfs`. -/
inductive CheckResult where
  | ok (is_consistent : Bool) (errors : List String)
  | valueError
  | fuelOut
deriving DecidableEq, Repr

/-- Graph query `DependencyGraph.check_consistency`: cycle detection by
three-color DFS followed by the dangling-reference scan, returning
`(len(errors) == 0, errors)` — unless `dfs` raises. -/
def check_consistency (tasks : List Task) : CheckResult :=
  let dict := buildDict tasks
  match consTop dict (dict.map Task.id) (fun _ => Color.white) [] with
  | DfsStep.ret _ _ _ cycles =>
      let errors := cycles ++ missingDepErrors dict
      CheckResult.ok errors.isEmpty errors
  | DfsStep.err => CheckResult.valueError
  | DfsStep.fuelOut => CheckResult.fuelOut

/-- The recursive `dfs` of `DependencyGraph.get_dependency_chain`: skip
visited nodes, otherwise mark visited, recurse into every dependency that
exists in the dict, then append the node's task post-order. -/
def chainDfs (dict : List Task) : Nat → String → List String × List Task →
    List String × List Task
  | 0, _, st => st
  | Nat.succ n, node, st =>
      if st.1.contains node then st
      else
        let out := (neighbors dict node).foldl
          (fun acc dep =>
            if containsId dict dep then chainDfs dict n dep acc else acc)
          (node :: st.1, st.2)
        (out.1, out.2 ++ (dictGet dict node).toList)

/-- Graph query `DependencyGraph.get_dependency_chain` (the engine behind
`MissionControl.get_task_chain`): empty for unknown ids, otherwise the
post-order DFS chain starting from the task. -/
def get_dependency_chain (tasks : List Task) (task_id : String) : List Task :=
  let dict := buildDict tasks
  if containsId dict task_id then
    (chainDfs dict (dict.length + 1) task_id ([], [])).2
  else []

/-- Dependency edge of the active-set graph: `u` is an active id whose
task lists the active id `v` in `depends_on`. -/
def Edge (dict : List Task) (u v : String) : Prop :=
  ∃ t, dictGet dict u = some t ∧ v ∈ t.depends_on ∧ containsId dict v = true

/-- Reachability along dependency edges. -/
def Reach (dict : List Task) : String → String → Prop :=
  Relation.ReflTransGen (Edge dict)

/-! ### Basic facts about the dict built by `_build_graph` -/

theorem dictInsert_map_id (acc : List Task) (t : Task)
    (h : acc.any (fun u => u.id == t.id) = true) :
    (dictInsert acc t).map Task.id = acc.map Task.id := by
  simp only [dictInsert, h, if_true]
  rw [List.map_map]
  apply List.map_congr_left
  intro u _
  by_cases hu : (u.id == t.id) = true
  · simp only [Function.comp, hu, if_true]
    exact (eq_of_beq hu).symm
  · simp only [Function.comp, hu]
    simp

theorem containsId_eq_map_any (l : List Task) (y : String) :
    containsId l y = (l.map Task.id).any (fun z => z == y) := by
  induction l with
  | nil => rfl
  | cons t rest ih =>
      simp only [containsId, List.map_cons, List.any_cons]
      simp only [containsId] at ih
      rw [ih]

theorem containsId_dictInsert (acc : List Task) (t : Task) (y : String) :
    containsId (dictInsert acc t) y = (containsId acc y || (t.id == y)) := by
  by_cases h : acc.any (fun u => u.id == t.id) = true
  · have hmap : (dictInsert acc t).map Task.id = acc.map Task.id :=
      dictInsert_map_id acc t h
    have h1 : containsId (dictInsert acc t) y = containsId acc y := by
      rw [containsId_eq_map_any, hmap, ← containsId_eq_map_any]
    rw [h1]
    by_cases hy : (t.id == y) = true
    · have : containsId acc y = true := by
        have hty := eq_of_beq hy
        subst hty
        simpa [containsId] using h
      simp [this, hy]
    · simp [hy]
  · rw [Bool.not_eq_true] at h
    simp only [dictInsert, h]
    simp [containsId]

theorem containsId_foldl (l : List Task) :
    ∀ acc y, containsId (l.foldl dictInsert acc) y =
      (containsId acc y || l.any (fun t => t.id == y)) := by
  induction l with
  | nil => intro acc y; simp
  | cons t rest ih =>
      intro acc y
      simp only [List.foldl_cons, List.any_cons]
      rw [ih, containsId_dictInsert]
      cases containsId acc y <;> cases h : (t.id == y) <;> simp

theorem containsId_buildDict (tasks : List Task) (y : String) :
    containsId (buildDict tasks) y = tasks.any (fun t => t.id == y) := by
  rw [buildDict, containsId_foldl]
  simp [containsId]

theorem nodup_dictInsert (acc : List Task) (t : Task)
    (h : (acc.map Task.id).Nodup) : ((dictInsert acc t).map Task.id).Nodup := by
  by_cases hc : acc.any (fun u => u.id == t.id) = true
  · rw [dictInsert_map_id acc t hc]; exact h
  · rw [Bool.not_eq_true] at hc
    simp only [dictInsert, hc]
    simp only [Bool.false_eq_true, if_false, List.map_append, List.map_cons, List.map_nil]
    rw [List.nodup_append]
    refine ⟨h, List.nodup_singleton _, ?_⟩
    intro y hy
    simp only [List.mem_singleton]
    intro hyt
    subst hyt
    obtain ⟨u, hu, huid⟩ := List.mem_map.mp hy
    have : acc.any (fun u => u.id == t.id) = true :=
      List.any_eq_true.mpr ⟨u, hu, by rw [huid]; exact beq_self_eq_true _⟩
    rw [hc] at this
    exact Bool.false_ne_true this

theorem nodup_buildDict (tasks : List Task) :
    ((buildDict tasks).map Task.id).Nodup := by
  rw [buildDict]
  have : ∀ acc, (acc.map Task.id).Nodup →
      ((tasks.foldl dictInsert acc).map Task.id).Nodup := by
    induction tasks with
    | nil => intro acc h; simpa using h
    | cons t rest ih =>
        intro acc h
        simp only [List.foldl_cons]
        exact ih _ (nodup_dictInsert acc t h)
  exact this [] (by simp)

theorem mem_dictInsert (acc : List Task) (t x : Task)
    (h : x ∈ dictInsert acc t) : x ∈ acc ∨ x = t := by
  by_cases hc : acc.any (fun u => u.id == t.id) = true
  · simp only [dictInsert, hc, if_true] at h
    obtain ⟨u, hu, hux⟩ := List.mem_map.mp h
    by_cases huid : (u.id == t.id) = true
    · right; rw [← hux]; simp [huid]
    · left; rw [← hux]; simpa [huid] using hu
  · rw [Bool.not_eq_true] at hc
    simp only [dictInsert, hc, Bool.false_eq_true, if_false, List.mem_append,
      List.mem_singleton] at h
    exact h

theorem mem_buildDict_sub (tasks : List Task) :
    ∀ x ∈ buildDict tasks, x ∈ tasks := by
  rw [buildDict]
  have : ∀ acc (S : List Task), (∀ y ∈ acc, y ∈ S) → (∀ y ∈ tasks, y ∈ S) →
      ∀ x ∈ tasks.foldl dictInsert acc, x ∈ S := by
    induction tasks with
    | nil => intro acc S hacc _ x hx; exact hacc x hx
    | cons t rest ih =>
        intro acc S hacc hl x hx
        simp only [List.foldl_cons] at hx
        refine ih _ S ?_ (fun y hy => hl y (List.mem_cons_of_mem _ hy)) x hx
        intro y hy
        rcases mem_dictInsert acc t y hy with h | h
        · exact hacc y h
        · exact h ▸ hl t (List.mem_cons_self t rest)
  exact fun x hx => this [] tasks (by simp) (fun y hy => hy) x hx

theorem buildDict_self (tasks : List Task)
    (h : (tasks.map Task.id).Nodup) : buildDict tasks = tasks := by
  rw [buildDict]
  have main : ∀ (l acc : List Task), ((acc ++ l).map Task.id).Nodup →
      l.foldl dictInsert acc = acc ++ l := by
    intro l
    induction l with
    | nil => intro acc _; simp
    | cons t rest ih =>
        intro acc hnd
        simp only [List.foldl_cons]
        have hins : dictInsert acc t = acc ++ [t] := by
          have hfalse : acc.any (fun u => u.id == t.id) = false := by
            by_contra hc
            rw [Bool.not_eq_false, List.any_eq_true] at hc
            obtain ⟨u, hu, huid⟩ := hc
            rw [List.map_append, List.nodup_append] at hnd
            have h1 : u.id ∈ acc.map Task.id := List.mem_map_of_mem _ hu
            have h2 : u.id ∈ ((t :: rest).map Task.id) := by
              rw [eq_of_beq huid]; simp
            exact hnd.2.2 h1 h2
          simp [dictInsert, hfalse]
        rw [hins, ih (acc ++ [t]) (by simpa using hnd)]
        simp
  exact main tasks [] (by simpa using h)

/-! ### Facts about the storage upsert -/

theorem refreshMeta_id (env : GitEnv) (t : Task) : (refreshMeta env t).id = t.id := rfl

theorem find?_upsert (l : List Task) (x : Task) :
    (upsert l x).find? (fun u => u.id == x.id) = some x := by
  induction l with
  | nil => simp [upsert, List.find?]
  | cons u rest ih =>
      by_cases h : (u.id == x.id) = true
      · simp [upsert, h, List.find?]
      · rw [Bool.not_eq_true] at h
        simp only [upsert, h, Bool.false_eq_true, if_false]
        rw [List.find?_cons_of_neg _ (by simp [h]), ih]

theorem upsert_eq (l : List Task) (x : Task) :
    upsert l x =
      if l.any (fun u => u.id == x.id) then
        l.set (l.findIdx (fun u => u.id == x.id)) x
      else l ++ [x] := by
  induction l with
  | nil => simp [upsert]
  | cons u rest ih =>
      by_cases h : (u.id == x.id) = true
      · simp [upsert, h, List.findIdx_cons]
      · rw [Bool.not_eq_true] at h
        simp only [upsert, h, Bool.false_eq_true, if_false, List.any_cons,
          Bool.false_or, List.findIdx_cons, cond_false, ih]
        by_cases hr : rest.any (fun u => u.id == x.id) = true
        · simp [hr]
        · rw [Bool.not_eq_true] at hr
          simp [hr]

/-! ### Claim theorems C4, C8, C10, C2 -/

/-- C4.  For every Task T (valid or not), after `save_task(T)`,
`load_task(T.id)` returns a record equal to T in every field except the
metadata refreshed by the save (`branch`, `commit_hash`, `updated_at`); in
particular `metadata.created_at` is unchanged. -/
theorem save_load_roundtrip (env : GitEnv) (s : Store) (t : Task) :
    ∃ r, load_task (save_task env s t).1 t.id = some r ∧
      r.id = t.id ∧ r.title = t.title ∧ r.description = t.description ∧
      r.status = t.status ∧ r.depends_on = t.depends_on ∧
      r.blocked_by = t.blocked_by ∧ r.tags = t.tags ∧
      r.priority = t.priority ∧ r.metadata.created_at = t.metadata.created_at ∧
      r.metadata.branch = env.branch ∧ r.metadata.commit_hash = env.commit_hash ∧
      r.metadata.updated_at = env.now := by
  refine ⟨refreshMeta env t, ?_, rfl, rfl, rfl, rfl, rfl, rfl, rfl, rfl, rfl,
    rfl, rfl, rfl⟩
  show (upsert s.tasks (refreshMeta env t)).find? (fun u => u.id == t.id) = _
  have : t.id = (refreshMeta env t).id := rfl
  rw [this]
  exact find?_upsert s.tasks (refreshMeta env t)

/-- C8.  `save_task` performs an upsert keyed by id: when a record with
the same id exists, the first such record is replaced in place at its
original index and everything else is unchanged and in order; otherwise
the (metadata-refreshed) task is appended after all existing records.
The archive log is untouched. -/
theorem save_task_upsert_inplace (env : GitEnv) (s : Store) (t : Task) :
    (save_task env s t).1.tasks =
      (if s.tasks.any (fun u => u.id == t.id) then
        s.tasks.set (s.tasks.findIdx (fun u => u.id == t.id)) (refreshMeta env t)
      else s.tasks ++ [refreshMeta env t]) ∧
    (save_task env s t).1.archive = s.archive := by
  constructor
  · show upsert s.tasks (refreshMeta env t) = _
    rw [upsert_eq]
    have : (fun u : Task => u.id == (refreshMeta env t).id) =
        (fun u : Task => u.id == t.id) := rfl
    rw [this]
  · rfl

/-- C10.  For an id with no record in the active set, `get_task_chain`
returns the empty list. -/
theorem chain_unknown_id_empty (tasks : List Task) (task_id : String)
    (h : ∀ t ∈ tasks, t.id ≠ task_id) :
    get_dependency_chain tasks task_id = [] := by
  have hc : containsId (buildDict tasks) task_id = false := by
    rw [containsId_buildDict]
    rw [← Bool.not_eq_true, List.any_eq_true]
    rintro ⟨t, ht, hid⟩
    exact h t ht (eq_of_beq hid)
  simp [get_dependency_chain, hc]

/-- C10 witness: the empty store. -/
theorem chain_unknown_id_empty_witness :
    get_dependency_chain [] "m-ghost" = [] :=
  chain_unknown_id_empty [] "m-ghost" (by simp)

/-- Concrete store exhibiting the `check_consistency` crash: a two-task
cycle plus a third task pointing into it, in this file order. -/
def crashMeta : GitMetadata :=
  { branch := "main", commit_hash := "abc", created_at := "t0", updated_at := "t0" }

/-- Task `a` of the crash store: depends on `b`. -/
def crashA : Task := { id := "a", title := "A", depends_on := ["b"], metadata := crashMeta }

/-- Task `b` of the crash store: depends on `a` (closing the cycle). -/
def crashB : Task := { id := "b", title := "B", depends_on := ["a"], metadata := crashMeta }

/-- Task `c` of the crash store: depends on `a` (points into the cycle). -/
def crashC : Task := { id := "c", title := "C", depends_on := ["a"], metadata := crashMeta }

/-- C2.  `check_consistency` does not always return a pair: on the store
`[a -> b, b -> a, c -> a]` the DFS started at `a` finds the cycle and
aborts, leaving `a` and `b` gray; the DFS then started at `c` (with a
fresh empty path) meets the stale gray `a`, and `path.index("a")` raises
an uncaught `ValueError`, so the call crashes instead of returning
`(False, errors)`. -/
theorem check_consistency_valueError_crash :
    check_consistency [crashA, crashB, crashC] = CheckResult.valueError := by
  rfl

/-! ### The ready queue (claims C1, C5, C6) -/

theorem find?_id_of_nodup (tasks : List Task) (dep : String) (d : Task)
    (h : (tasks.map Task.id).Nodup) (hd : d ∈ tasks) (hid : d.id = dep) :
    tasks.find? (fun u => u.id == dep) = some d := by
  induction tasks with
  | nil => cases hd
  | cons u rest ih =>
      rcases List.mem_cons.mp hd with hdu | hdr
      · subst hdu
        rw [List.find?_cons_of_pos _ (by rw [hid]; exact beq_self_eq_true _)]
      · have hne : (u.id == dep) = false := by
          rw [List.map_cons, List.nodup_cons] at h
          rw [beq_eq_false_iff_ne]
          intro hu
          exact h.1 (by rw [hu, ← hid]; exact List.mem_map_of_mem _ hdr)
        rw [List.find?_cons_of_neg _ (by simp [hne])]
        exact ih (by rw [List.map_cons, List.nodup_cons] at h; exact h.2) hdr

theorem blockingOf_nil_iff (dict : List Task) (t : Task) :
    blockingOf dict t = [] ↔
      ∀ dep ∈ t.depends_on, ∃ d, dictGet dict dep = some d ∧
        d.status = TaskStatus.done := by
  rw [blockingOf, List.filter_eq_nil_iff]
  constructor
  · intro h dep hdep
    have := h dep hdep
    rcases hg : dictGet dict dep with _ | d
    · rw [hg] at this; simp at this
    · rw [hg] at this
      simp only [Bool.not_eq_true, Bool.not_eq_false] at this
      exact ⟨d, rfl, by
        have : (d.status == TaskStatus.done) = true := by
          by_contra hc
          rw [Bool.not_eq_true] at hc
          rw [hc] at this
          simp at this
        exact eq_of_beq this⟩
  · intro h dep hdep
    obtain ⟨d, hg, hs⟩ := h dep hdep
    rw [hg]
    simp [hs]

/-- C1.  On a store with unique ids (the documented invariant of the
active set), `list_ready_work()` returns exactly the active tasks whose
status is `todo` and whose every dependency id refers to an existing
active task with status `done`; in particular a `todo` task with a
dangling dependency id is never returned. -/
theorem list_ready_work_exact (tasks : List Task)
    (hNodup : (tasks.map Task.id).Nodup) (t : Task) :
    t ∈ get_ready_tasks tasks ↔
      (t ∈ tasks ∧ t.status = TaskStatus.todo ∧
        ∀ dep ∈ t.depends_on, ∃ d ∈ tasks, d.id = dep ∧
          d.status = TaskStatus.done) := by
  rw [get_ready_tasks]
  simp only [buildDict_self tasks hNodup]
  rw [List.mem_mergeSort, List.mem_filter]
  constructor
  · rintro ⟨hmem, hready⟩
    rw [isReady, Bool.and_eq_true] at hready
    refine ⟨hmem, eq_of_beq hready.1, ?_⟩
    have hnil : blockingOf tasks t = [] := by
      have := hready.2
      rwa [List.isEmpty_iff] at this
    intro dep hdep
    obtain ⟨d, hg, hs⟩ := (blockingOf_nil_iff tasks t).mp hnil dep hdep
    have hg2 : tasks.find? (fun u => u.id == dep) = some d := hg
    have hpd := List.find?_some hg2
    have hpd2 : (d.id == dep) = true := hpd
    exact ⟨d, List.mem_of_find?_eq_some hg2, eq_of_beq hpd2, hs⟩
  · rintro ⟨hmem, hstatus, hdeps⟩
    refine ⟨hmem, ?_⟩
    rw [isReady, Bool.and_eq_true]
    refine ⟨by rw [hstatus]; exact beq_self_eq_true _, ?_⟩
    rw [List.isEmpty_iff]
    rw [blockingOf_nil_iff]
    intro dep hdep
    obtain ⟨d, hd, hid, hs⟩ := hdeps dep hdep
    exact ⟨d, find?_id_of_nodup tasks dep d hNodup hd hid, hs⟩

/-- Shared ready task for witnesses: status `todo`, no dependencies. -/
def readyW : Task := { id := "w", title := "W", metadata := crashMeta }

/-- C1 witness: a singleton store whose task is ready. -/
theorem list_ready_work_exact_witness :
    readyW ∈ get_ready_tasks [readyW] :=
  (list_ready_work_exact [readyW] (by simp) readyW).mpr
    ⟨by simp, rfl, by simp [readyW]⟩

theorem readyLE_iff (a b : Task) :
    readyLE a b = true ↔
      (b.priority < a.priority ∨
        (a.priority = b.priority ∧
          a.metadata.created_at ≤ b.metadata.created_at)) := by
  rw [readyLE, Bool.or_eq_true, Bool.and_eq_true]
  constructor
  · rintro (h | ⟨h1, h2⟩)
    · exact Or.inl (of_decide_eq_true h)
    · exact Or.inr ⟨eq_of_beq h1, of_decide_eq_true h2⟩
  · rintro (h | ⟨h1, h2⟩)
    · exact Or.inl (decide_eq_true h)
    · exact Or.inr ⟨by rw [h1]; exact beq_self_eq_true _, decide_eq_true h2⟩

theorem readyLE_trans (a b c : Task) (hab : readyLE a b = true)
    (hbc : readyLE b c = true) : readyLE a c = true := by
  rw [readyLE_iff] at *
  rcases hab with h1 | ⟨h1, h1c⟩ <;> rcases hbc with h2 | ⟨h2, h2c⟩
  · exact Or.inl (lt_trans h2 h1)
  · exact Or.inl (h2 ▸ h1)
  · exact Or.inl (by rw [h1]; exact h2)
  · exact Or.inr ⟨h1.trans h2, le_trans h1c h2c⟩

theorem readyLE_total (a b : Task) : (readyLE a b || readyLE b a) = true := by
  rw [Bool.or_eq_true, readyLE_iff, readyLE_iff]
  rcases lt_trichotomy a.priority b.priority with h | h | h
  · exact Or.inr (Or.inl h)
  · rcases le_total a.metadata.created_at b.metadata.created_at with hc | hc
    · exact Or.inl (Or.inr ⟨h, hc⟩)
    · exact Or.inr (Or.inr ⟨h.symm, hc⟩)
  · exact Or.inl (Or.inl h)

/-- C5.  The list returned by `list_ready_work()` is sorted with priority
non-increasing, and among equal priorities `metadata.created_at` is
non-decreasing (older tasks first). -/
theorem list_ready_work_sorted (tasks : List Task) :
    (get_ready_tasks tasks).Pairwise (fun a b =>
      b.priority < a.priority ∨
        (a.priority = b.priority ∧
          a.metadata.created_at ≤ b.metadata.created_at)) := by
  have h := List.sorted_mergeSort readyLE_trans readyLE_total
    ((buildDict tasks).filter (isReady (buildDict tasks)))
  rw [get_ready_tasks]
  exact h.imp (fun hab => (readyLE_iff _ _).mp hab)

/-- Shared counterexample task for C6: ready (status `todo`, no
dependencies) but with a non-empty `blocked_by` persisted in its record. -/
def staleBlocked : Task :=
  { id := "s", title := "S", blocked_by := ["z"], metadata := crashMeta }

/-- Evaluation helper: the singleton stale store returns its task as-is. -/
theorem ready_eval_stale :
    get_ready_tasks [staleBlocked] = [staleBlocked] := by
  show ((buildDict [staleBlocked]).filter
    (isReady (buildDict [staleBlocked]))).mergeSort readyLE = _
  have h1 : (buildDict [staleBlocked]).filter
      (isReady (buildDict [staleBlocked])) = [staleBlocked] := rfl
  rw [h1, List.mergeSort_singleton]

/-- C6 counterexample: a ready task whose stored record carries
`blocked_by = ["z"]` is returned with that value intact, not `[]` —
`get_ready_tasks` never touches the `blocked_by` of ready tasks. -/
theorem ready_blocked_by_not_cleared :
    ∃ t ∈ get_ready_tasks [staleBlocked], t.blocked_by ≠ [] := by
  refine ⟨staleBlocked, ?_, by simp [staleBlocked]⟩
  rw [ready_eval_stale]
  simp

/-- C6 amended.  Tasks returned by `list_ready_work()` are the stored dict
records unchanged (so their `blocked_by` is whatever was persisted, not
necessarily `[]`), while every non-ready `todo` task examined during the
same computation has `blocked_by` set to exactly the ids of its unfinished
or missing dependencies, in `depends_on` order. -/
theorem ready_blocked_by_amended (tasks : List Task) :
    (∀ t ∈ get_ready_tasks tasks, t ∈ tasks) ∧
    (∀ t ∈ examinedTasks tasks, t.status = TaskStatus.todo →
      blockingOf (buildDict tasks) t ≠ [] →
      t.blocked_by = blockingOf (buildDict tasks) t) := by
  constructor
  · intro t ht
    rw [get_ready_tasks, List.mem_mergeSort, List.mem_filter] at ht
    exact mem_buildDict_sub tasks t ht.1
  · intro t ht hstatus hblock
    rw [examinedTasks, List.mem_map] at ht
    obtain ⟨t0, ht0, hmap⟩ := ht
    by_cases hc : (t0.status == TaskStatus.todo &&
        !(blockingOf (buildDict tasks) t0).isEmpty) = true
    · rw [hc, if_pos rfl] at hmap
      subst hmap
      rfl
    · rw [Bool.not_eq_true] at hc
      rw [hc] at hmap
      simp only [Bool.false_eq_true, if_false] at hmap
      subst hmap
      rw [Bool.and_eq_false_iff] at hc
      rcases hc with hc | hc
      · rw [hstatus] at hc
        rw [beq_self_eq_true] at hc
        cases hc
      · rw [Bool.not_eq_false', List.isEmpty_iff] at hc
        exact absurd hc hblock

/-- C6 amended witness: the stale task is returned and is a stored record. -/
theorem ready_blocked_by_amended_witness :
    staleBlocked ∈ [staleBlocked] :=
  (ready_blocked_by_amended [staleBlocked]).1 staleBlocked
    (by rw [ready_eval_stale]; simp)

/-! ### Auto-archive on completion (claim C3) and the delete guard (C9) -/

theorem upsert_map_id (l : List Task) (x : Task)
    (h : l.any (fun u => u.id == x.id) = true) :
    (upsert l x).map Task.id = l.map Task.id := by
  induction l with
  | nil => simp at h
  | cons u rest ih =>
      by_cases hu : (u.id == x.id) = true
      · simp only [upsert, hu, if_true, List.map_cons]
        rw [eq_of_beq hu]
      · rw [Bool.not_eq_true] at hu
        simp only [upsert, hu, Bool.false_eq_true, if_false, List.map_cons]
        rw [List.any_cons, hu, Bool.false_or] at h
        rw [ih h]

theorem upsert_filter_isEmpty (l : List Task) (x t : Task) (q : Task → Bool)
    (hfind : l.find? (fun u => u.id == x.id) = some t)
    (hq : q t = q x) :
    ((upsert l x).filter q).isEmpty = (l.filter q).isEmpty := by
  induction l with
  | nil => simp [List.find?] at hfind
  | cons u rest ih =>
      by_cases hu : (u.id == x.id) = true
      · have h2 : (u :: rest).find? (fun v => v.id == x.id) = some u :=
          @List.find?_cons_of_pos _ (fun v => v.id == x.id) u rest hu
        rw [h2, Option.some_inj] at hfind
        subst hfind
        simp only [upsert, hu, if_true, List.filter_cons]
        rw [hq]
        cases q x <;> simp
      · rw [Bool.not_eq_true] at hu
        have h2 : (u :: rest).find? (fun v => v.id == x.id) =
            rest.find? (fun v => v.id == x.id) :=
          @List.find?_cons_of_neg _ (fun v => v.id == x.id) u rest (by simp [hu])
        rw [h2] at hfind
        simp only [upsert, hu, Bool.false_eq_true, if_false, List.filter_cons]
        cases hqu : q u
        · simp only [Bool.false_eq_true, if_false]
          exact ih hfind
        · simp only [if_true]
          simp

theorem delete_task_of_mem (s : Store) (task_id : String)
    (h : ∃ u ∈ s.tasks, u.id = task_id) :
    delete_task s task_id =
      ({ s with tasks := s.tasks.filter (fun u => !(u.id == task_id)) }, true) := by
  obtain ⟨u, hu, hid⟩ := h
  have hlt : (s.tasks.filter (fun v => !(v.id == task_id))).length <
      s.tasks.length := by
    rw [List.length_filter_lt_length_iff_exists]
    exact ⟨u, hu, by simp [hid]⟩
  simp [delete_task, hlt]

/-- C3.  `update_task_status(id, done)` with `auto_archive = true` on an
existing active task (store ids unique): the task is removed from the
active set — with its saved record appended to the archive log — iff it
had no dependents in the active set at the moment of the call; with at
least one dependent it stays active with status `done` and the archive is
untouched. -/
theorem update_done_autoarchive (env : GitEnv) (s : Store) (task_id : String)
    (t : Task) (hNodup : (s.tasks.map Task.id).Nodup)
    (hload : load_task s task_id = some t) :
    (((∀ u ∈ (update_task_status env s task_id TaskStatus.done true).1.tasks,
        u.id ≠ task_id) ∧
      (update_task_status env s task_id TaskStatus.done true).1.archive =
        s.archive ++ [refreshMeta env { t with status := TaskStatus.done }]) ↔
      s.tasks.filter (fun u => u.depends_on.contains task_id) = []) ∧
    (s.tasks.filter (fun u => u.depends_on.contains task_id) ≠ [] →
      load_task (update_task_status env s task_id TaskStatus.done true).1 task_id =
        some (refreshMeta env { t with status := TaskStatus.done }) ∧
      (refreshMeta env { t with status := TaskStatus.done }).status =
        TaskStatus.done ∧
      (update_task_status env s task_id TaskStatus.done true).1.archive =
        s.archive) := by
  have hfind : s.tasks.find? (fun u => u.id == task_id) = some t := hload
  have htid0 := List.find?_some hfind
  have htid : t.id = task_id := eq_of_beq htid0
  set saved := refreshMeta env { t with status := TaskStatus.done } with hsaved
  have hsid : saved.id = task_id := htid
  have hany : s.tasks.any (fun u => u.id == saved.id) = true :=
    List.any_eq_true.mpr ⟨t, List.mem_of_find?_eq_some hfind,
      by rw [hsid, htid]; exact beq_self_eq_true _⟩
  have hup_ids : (upsert s.tasks saved).map Task.id = s.tasks.map Task.id :=
    upsert_map_id s.tasks saved hany
  have hnodup1 : ((upsert s.tasks saved).map Task.id).Nodup := by
    rw [hup_ids]; exact hNodup
  have hfind_saved : (upsert s.tasks saved).find? (fun u => u.id == task_id) =
      some saved := by
    rw [← hsid]
    exact find?_upsert s.tasks saved
  have hmem_saved : saved ∈ upsert s.tasks saved :=
    List.mem_of_find?_eq_some hfind_saved
  have hfind2 : s.tasks.find? (fun u => u.id == saved.id) = some t := by
    rw [hsid]; exact hfind
  have hdeps_eq :
      ((upsert s.tasks saved).filter
        (fun u => u.depends_on.contains task_id)).isEmpty =
      (s.tasks.filter (fun u => u.depends_on.contains task_id)).isEmpty :=
    upsert_filter_isEmpty s.tasks saved t _ hfind2 rfl
  have hout : update_task_status env s task_id TaskStatus.done true =
      (if (get_dependents (upsert s.tasks saved) task_id).isEmpty then
        ((archive_task (Store.mk (upsert s.tasks saved) s.archive) task_id).1,
          some saved)
      else (Store.mk (upsert s.tasks saved) s.archive, some saved)) := by
    rw [update_task_status, hload]
    rfl
  have hdict : buildDict (upsert s.tasks saved) = upsert s.tasks saved :=
    buildDict_self _ hnodup1
  have hdeps : (get_dependents (upsert s.tasks saved) task_id).isEmpty =
      (s.tasks.filter (fun u => u.depends_on.contains task_id)).isEmpty := by
    rw [get_dependents, hdict]
    exact hdeps_eq
  by_cases hcase :
      s.tasks.filter (fun u => u.depends_on.contains task_id) = []
  · have hempty : (get_dependents (upsert s.tasks saved) task_id).isEmpty = true := by
      rw [hdeps, hcase]; rfl
    have harch : archive_task (Store.mk (upsert s.tasks saved) s.archive) task_id =
        (Store.mk ((upsert s.tasks saved).filter (fun u => !(u.id == task_id)))
          (s.archive ++ [saved]), true) := by
      rw [archive_task]
      have hload1 : load_task (Store.mk (upsert s.tasks saved) s.archive) task_id =
          some saved := hfind_saved
      rw [hload1]
      exact delete_task_of_mem _ task_id ⟨saved, hmem_saved, hsid⟩
    rw [hout, if_pos hempty, harch]
    refine ⟨⟨fun _ => hcase, fun _ => ⟨?_, rfl⟩⟩, fun hne => absurd hcase hne⟩
    intro u hu
    have hu2 : u ∈ (upsert s.tasks saved).filter (fun v => !(v.id == task_id)) := hu
    have hu3 := List.of_mem_filter hu2
    rw [Bool.not_eq_eq_eq_not, Bool.not_true, beq_eq_false_iff_ne] at hu3
    exact hu3
  · have hempty : (get_dependents (upsert s.tasks saved) task_id).isEmpty = false := by
      rw [hdeps]
      rw [← Bool.not_eq_true, List.isEmpty_iff]
      exact hcase
    rw [hout, if_neg (by rw [hempty]; exact Bool.false_ne_true)]
    refine ⟨⟨fun hAB => ?_, fun h => absurd h hcase⟩,
      fun _ => ⟨hfind_saved, rfl, rfl⟩⟩
    have habs : saved.id ≠ task_id := hAB.1 saved hmem_saved
    exact absurd hsid habs

/-- Shared environment for witnesses. -/
def wEnv : GitEnv := { branch := "main", commit_hash := "abc", now := "t1" }

/-- C3 witness: a single ready task with no dependents gets archived. -/
theorem update_done_autoarchive_witness :
    (update_task_status wEnv { tasks := [readyW], archive := [] } "w"
      TaskStatus.done true).1.archive =
      [] ++ [refreshMeta wEnv { readyW with status := TaskStatus.done }] :=
  (((update_done_autoarchive wEnv { tasks := [readyW], archive := [] } "w"
    readyW (by simp) rfl).1).mpr rfl).2

/-- C9.  When the task named by `task_id` exists and has a dependent in
the active set (ids unique), the tool-layer `delete_task` handler refuses:
`success = false`, an error message, the dependents listed, store
untouched; while the engine-level `MissionControl.delete_task`
(`TaskStorage.delete_task`) removes the task unconditionally and returns
`true`. -/
theorem delete_tool_vs_engine (s : Store) (task_id : String) (t d : Task)
    (hNodup : (s.tasks.map Task.id).Nodup)
    (ht : t ∈ s.tasks) (htid : t.id = task_id)
    (hd : d ∈ s.tasks) (hdep : task_id ∈ d.depends_on) :
    (handle_delete_task s task_id).1 = s ∧
    (handle_delete_task s task_id).2.success = false ∧
    (handle_delete_task s task_id).2.error.isSome = true ∧
    (handle_delete_task s task_id).2.dependent_tasks =
      some ((s.tasks.filter (fun u => u.depends_on.contains task_id)).map
        (fun u => (u.id, u.title))) ∧
    (delete_task s task_id).2 = true ∧
    (delete_task s task_id).1.tasks =
      s.tasks.filter (fun u => !(u.id == task_id)) := by
  have hdict : get_dependents s.tasks task_id =
      s.tasks.filter (fun u => u.depends_on.contains task_id) := by
    rw [get_dependents, buildDict_self s.tasks hNodup]
  have hmemfilter : d ∈ s.tasks.filter (fun u => u.depends_on.contains task_id) :=
    List.mem_filter.mpr ⟨hd, by simp [hdep]⟩
  have hne : (get_dependents s.tasks task_id).isEmpty = false := by
    rw [hdict, ← Bool.not_eq_true, List.isEmpty_iff]
    intro hnil
    rw [hnil] at hmemfilter
    cases hmemfilter
  have hdel := delete_task_of_mem s task_id ⟨t, ht, htid⟩
  refine ⟨?_, ?_, ?_, ?_, by rw [hdel], by rw [hdel]⟩
  · rw [handle_delete_task]
    simp only [hne, Bool.not_false, if_true]
  · rw [handle_delete_task]
    simp only [hne, Bool.not_false, if_true]
  · rw [handle_delete_task]
    simp only [hne, Bool.not_false, if_true]
    rfl
  · rw [handle_delete_task]
    simp only [hne, Bool.not_false, if_true]
    rw [hdict]

/-- Shared witness task: depends on `readyW`. -/
def dependentW : Task :=
  { id := "w2", title := "W2", depends_on := ["w"], metadata := crashMeta }

/-- C9 witness: the guarded handler refuses while the engine deletes. -/
theorem delete_tool_vs_engine_witness :
    (handle_delete_task (Store.mk [readyW, dependentW] []) "w").1 =
      Store.mk [readyW, dependentW] [] ∧
    (handle_delete_task (Store.mk [readyW, dependentW] []) "w").2.success = false ∧
    (handle_delete_task (Store.mk [readyW, dependentW] []) "w").2.error.isSome = true ∧
    (handle_delete_task (Store.mk [readyW, dependentW] []) "w").2.dependent_tasks =
      some (((Store.mk [readyW, dependentW] []).tasks.filter
        (fun u => u.depends_on.contains "w")).map (fun u => (u.id, u.title))) ∧
    (delete_task (Store.mk [readyW, dependentW] []) "w").2 = true ∧
    (delete_task (Store.mk [readyW, dependentW] []) "w").1.tasks =
      (Store.mk [readyW, dependentW] []).tasks.filter (fun u => !(u.id == "w")) :=
  delete_tool_vs_engine (Store.mk [readyW, dependentW] []) "w" readyW dependentW
    (by simp [readyW, dependentW]) (by simp) rfl (by simp) (by simp [dependentW])

/-! ### Dependency-chain topology (claim C7)

The post-order DFS of `get_dependency_chain` is verified against the
reachability relation `Reach`: with no cycle reachable from the start,
the chain lists exactly the reachable tasks, once each, the start last,
and every active dependency of a listed task strictly earlier. -/

theorem containsId_iff_mem_map (dict : List Task) (v : String) :
    containsId dict v = true ↔ v ∈ dict.map Task.id := by
  rw [containsId, List.any_eq_true]
  constructor
  · rintro ⟨t, ht, hid⟩
    rw [← eq_of_beq hid]
    exact List.mem_map_of_mem _ ht
  · intro hv
    obtain ⟨t, ht, hid⟩ := List.mem_map.mp hv
    exact ⟨t, ht, by rw [hid]; exact beq_self_eq_true _⟩

theorem dictGet_of_containsId (dict : List Task) (node : String)
    (h : containsId dict node = true) :
    ∃ t, dictGet dict node = some t ∧ t.id = node := by
  rw [containsId, List.any_eq_true] at h
  obtain ⟨t, ht, hid⟩ := h
  rcases hfind : dictGet dict node with _ | u
  · rw [dictGet, List.find?_eq_none] at hfind
    exact absurd hid (by simpa using hfind t ht)
  · have := List.find?_some (show dict.find? (fun v => v.id == node) = some u from hfind)
    exact ⟨u, rfl, eq_of_beq this⟩

/-- The ordering invariant of a chain: read left to right, every active
dependency of each entry is among the already-seen ids. -/
def depsBefore (dict : List Task) : List Task → List String → Prop
  | [], _ => True
  | t :: rest, seen =>
      (∀ dep, Edge dict t.id dep → dep ∈ seen) ∧
        depsBefore dict rest (seen ++ [t.id])

theorem depsBefore_append (dict : List Task) (c1 : List Task) :
    ∀ (c2 : List Task) (seen : List String),
      depsBefore dict (c1 ++ c2) seen ↔
        depsBefore dict c1 seen ∧ depsBefore dict c2 (seen ++ c1.map Task.id) := by
  induction c1 with
  | nil => intro c2 seen; simp [depsBefore]
  | cons t rest ih =>
      intro c2 seen
      simp only [List.cons_append, depsBefore, List.map_cons, List.append_eq]
      rw [ih c2 (seen ++ [t.id])]
      rw [List.append_assoc, List.singleton_append]
      tauto

theorem depsBefore_split (dict : List Task) (pre : List Task) :
    ∀ (c : List Task) (seen : List String) (t : Task) (post : List Task),
      depsBefore dict c seen → c = pre ++ t :: post →
      ∀ dep, Edge dict t.id dep → dep ∈ seen ∨ ∃ u ∈ pre, u.id = dep := by
  induction pre with
  | nil =>
      intro c seen t post hdb hc dep hedge
      subst hc
      exact Or.inl (hdb.1 dep hedge)
  | cons u pre1 ih =>
      intro c seen t post hdb hc dep hedge
      subst hc
      have h2 := hdb.2
      rcases ih (pre1 ++ t :: post) (seen ++ [u.id]) t post h2 rfl dep hedge with
        hs | ⟨v, hv, hvid⟩
      · rcases List.mem_append.mp hs with hs | hs
        · exact Or.inl hs
        · exact Or.inr ⟨u, List.mem_cons_self u pre1, (List.mem_singleton.mp hs).symm⟩
      · exact Or.inr ⟨v, List.mem_cons_of_mem u hv, hvid⟩

/-- Preconditions of one `dfs(node)` call inside `get_dependency_chain`,
with the ghost stack `gray` of in-progress ancestors. -/
structure DfsHyps (dict : List Task) (X : String) (fuel : Nat) (node : String)
    (visited : List String) (chain : List Task) (gray : List String) : Prop where
  nodeAct : containsId dict node = true
  visAct : ∀ v ∈ visited, containsId dict v = true
  visNodup : visited.Nodup
  fuelOk : dict.length + 1 ≤ fuel + visited.length
  visPerm : visited.Perm (chain.map Task.id ++ gray)
  grayNode : ∀ g ∈ gray, Reach dict g node
  grayX : ∀ g ∈ gray, Reach dict X g
  reachX : Reach dict X node
  chainCanon : ∀ x ∈ chain, dictGet dict x.id = some x
  chainDeps : depsBefore dict chain []

/-- Postconditions of one `dfs(node)` call. -/
structure DfsOut (dict : List Task) (visited : List String) (chain : List Task)
    (gray : List String) (node : String) (out : List String × List Task) : Prop where
  ext : ∃ delta, out.2 = chain ++ delta
  perm : out.1.Perm (out.2.map Task.id ++ gray)
  nodup : out.1.Nodup
  sub : ∀ v ∈ out.1, containsId dict v = true
  mono : ∀ v ∈ visited, v ∈ out.1
  lenMono : visited.length ≤ out.1.length
  nodeIn : node ∈ out.1
  sound : ∀ u ∈ out.1, u ∈ visited ∨ Reach dict node u
  closed : ∀ u ∈ out.1, u ∈ visited ∨ ∀ dep, Edge dict u dep → dep ∈ out.1
  canon : ∀ x ∈ out.2, dictGet dict x.id = some x
  depCl : depsBefore dict out.2 []

/-- Preconditions of the dependency loop of `dfs(parent)`. -/
structure NbrsHyps (dict : List Task) (X : String) (n : Nat) (parent : String)
    (nbrs : List String) (visited : List String) (chain : List Task)
    (gray : List String) : Prop where
  parAct : containsId dict parent = true
  nbrsEdge : ∀ d ∈ nbrs, containsId dict d = true → Edge dict parent d
  visAct : ∀ v ∈ visited, containsId dict v = true
  visNodup : visited.Nodup
  fuelOk : dict.length + 1 ≤ n + visited.length
  visPerm : visited.Perm (chain.map Task.id ++ gray)
  grayPar : ∀ g ∈ gray, Reach dict g parent
  grayX : ∀ g ∈ gray, Reach dict X g
  reachX : Reach dict X parent
  chainCanon : ∀ x ∈ chain, dictGet dict x.id = some x
  chainDeps : depsBefore dict chain []

/-- Postconditions of the dependency loop. -/
structure NbrsOut (dict : List Task) (visited : List String) (chain : List Task)
    (gray : List String) (nbrs : List String)
    (out : List String × List Task) : Prop where
  ext : ∃ delta, out.2 = chain ++ delta
  perm : out.1.Perm (out.2.map Task.id ++ gray)
  nodup : out.1.Nodup
  sub : ∀ v ∈ out.1, containsId dict v = true
  mono : ∀ v ∈ visited, v ∈ out.1
  lenMono : visited.length ≤ out.1.length
  allNbrs : ∀ d ∈ nbrs, containsId dict d = true → d ∈ out.1
  sound : ∀ u ∈ out.1, u ∈ visited ∨
    ∃ d ∈ nbrs, containsId dict d = true ∧ Reach dict d u
  closed : ∀ u ∈ out.1, u ∈ visited ∨ ∀ dep, Edge dict u dep → dep ∈ out.1
  canon : ∀ x ∈ out.2, dictGet dict x.id = some x
  depCl : depsBefore dict out.2 []

/-- Specification of the dependency loop of `dfs(parent)`: assuming the
one-call specification at fuel `n` (the induction hypothesis on fuel),
folding over any suffix of the parent's neighbour list preserves the
invariants and visits every existing neighbour. -/
theorem chainFold_spec (dict : List Task) (X : String) (n : Nat)
    (IH : ∀ node visited chain gray,
      DfsHyps dict X n node visited chain gray →
      DfsOut dict visited chain gray node (chainDfs dict n node (visited, chain))) :
    ∀ (nbrs : List String) (parent : String) (visited : List String)
      (chain : List Task) (gray : List String),
      NbrsHyps dict X n parent nbrs visited chain gray →
      NbrsOut dict visited chain gray nbrs
        (nbrs.foldl (fun acc dep =>
          if containsId dict dep then chainDfs dict n dep acc else acc)
          (visited, chain)) := by
  intro nbrs
  induction nbrs with
  | nil =>
      intro parent visited chain gray H
      exact
        { ext := ⟨[], by simp⟩
          perm := H.visPerm
          nodup := H.visNodup
          sub := H.visAct
          mono := fun v hv => hv
          lenMono := le_refl _
          allNbrs := by simp
          sound := fun u hu => Or.inl hu
          closed := fun u hu => Or.inl hu
          canon := H.chainCanon
          depCl := H.chainDeps }
  | cons dep rest ihrest =>
      intro parent visited chain gray H
      rw [List.foldl_cons]
      by_cases hc : containsId dict dep = true
      · rw [if_pos hc]
        have hedge : Edge dict parent dep :=
          H.nbrsEdge dep (List.mem_cons_self dep rest) hc
        have HD : DfsHyps dict X n dep visited chain gray :=
          { nodeAct := hc
            visAct := H.visAct
            visNodup := H.visNodup
            fuelOk := H.fuelOk
            visPerm := H.visPerm
            grayNode := fun g hg => Relation.ReflTransGen.tail (H.grayPar g hg) hedge
            grayX := H.grayX
            reachX := Relation.ReflTransGen.tail H.reachX hedge
            chainCanon := H.chainCanon
            chainDeps := H.chainDeps }
        have O := IH dep visited chain gray HD
        set o := chainDfs dict n dep (visited, chain) with ho
        have HN : NbrsHyps dict X n parent rest o.1 o.2 gray :=
          { parAct := H.parAct
            nbrsEdge := fun d hd => H.nbrsEdge d (List.mem_cons_of_mem dep hd)
            visAct := O.sub
            visNodup := O.nodup
            fuelOk := by have h1 := H.fuelOk; have h2 := O.lenMono; omega
            visPerm := O.perm
            grayPar := H.grayPar
            grayX := H.grayX
            reachX := H.reachX
            chainCanon := O.canon
            chainDeps := O.depCl }
        have O2 := ihrest parent o.1 o.2 gray HN
        rw [Prod.mk.eta] at O2
        obtain ⟨d1, hd1⟩ := O.ext
        obtain ⟨d2, hd2⟩ := O2.ext
        refine
          { ext := ⟨d1 ++ d2, by rw [hd2, hd1, List.append_assoc]⟩
            perm := O2.perm
            nodup := O2.nodup
            sub := O2.sub
            mono := fun v hv => O2.mono v (O.mono v hv)
            lenMono := le_trans O.lenMono O2.lenMono
            allNbrs := ?_
            sound := ?_
            closed := ?_
            canon := O2.canon
            depCl := O2.depCl }
        · intro d hd hcd
          rcases List.mem_cons.mp hd with hdd | hdr
          · subst hdd
            exact O2.mono d O.nodeIn
          · exact O2.allNbrs d hdr hcd
        · intro u hu
          rcases O2.sound u hu with h1 | ⟨d, hd, hcd, hr⟩
          · rcases O.sound u h1 with h2 | h2
            · exact Or.inl h2
            · exact Or.inr ⟨dep, List.mem_cons_self dep rest, hc, h2⟩
          · exact Or.inr ⟨d, List.mem_cons_of_mem dep hd, hcd, hr⟩
        · intro u hu
          rcases O2.closed u hu with h1 | h1
          · rcases O.closed u h1 with h2 | h2
            · exact Or.inl h2
            · exact Or.inr (fun dep2 he => O2.mono dep2 (h2 dep2 he))
          · exact Or.inr h1
      · rw [if_neg hc]
        have HN : NbrsHyps dict X n parent rest visited chain gray :=
          { parAct := H.parAct
            nbrsEdge := fun d hd => H.nbrsEdge d (List.mem_cons_of_mem dep hd)
            visAct := H.visAct
            visNodup := H.visNodup
            fuelOk := H.fuelOk
            visPerm := H.visPerm
            grayPar := H.grayPar
            grayX := H.grayX
            reachX := H.reachX
            chainCanon := H.chainCanon
            chainDeps := H.chainDeps }
        have O2 := ihrest parent visited chain gray HN
        refine
          { ext := O2.ext
            perm := O2.perm
            nodup := O2.nodup
            sub := O2.sub
            mono := O2.mono
            lenMono := O2.lenMono
            allNbrs := ?_
            sound := ?_
            closed := O2.closed
            canon := O2.canon
            depCl := O2.depCl }
        · intro d hd hcd
          rcases List.mem_cons.mp hd with hdd | hdr
          · subst hdd; exact absurd hcd hc
          · exact O2.allNbrs d hdr hcd
        · intro u hu
          rcases O2.sound u hu with h1 | ⟨d, hd, hcd, hr⟩
          · exact Or.inl h1
          · exact Or.inr ⟨d, List.mem_cons_of_mem dep hd, hcd, hr⟩

/-- Unfolding equation of `chainDfs` at positive fuel. -/
theorem chainDfs_succ (dict : List Task) (n : Nat) (node : String)
    (visited : List String) (chain : List Task) :
    chainDfs dict (n + 1) node (visited, chain) =
      if visited.contains node then (visited, chain)
      else
        (((neighbors dict node).foldl
          (fun acc dep => if containsId dict dep then chainDfs dict n dep acc else acc)
          (node :: visited, chain)).1,
         ((neighbors dict node).foldl
          (fun acc dep => if containsId dict dep then chainDfs dict n dep acc else acc)
          (node :: visited, chain)).2 ++ (dictGet dict node).toList) := rfl

/-- Specification of one `dfs(node)` call of `get_dependency_chain`, by
induction on fuel: given the invariants, the call returns an extended
chain whose new entries are exactly the newly visited ids, keeps the
visited set in bijection with chain entries plus the gray stack,
visits every dependency of the node, and keeps the chain dep-closed. -/
theorem chainDfs_spec (dict : List Task) (X : String)
    (hacyc : ∀ y, Reach dict X y → ¬ Relation.TransGen (Edge dict) y y) :
    ∀ (fuel : Nat) (node : String) (visited : List String) (chain : List Task)
      (gray : List String), DfsHyps dict X fuel node visited chain gray →
      DfsOut dict visited chain gray node
        (chainDfs dict fuel node (visited, chain)) := by
  intro fuel
  induction fuel with
  | zero =>
      intro node visited chain gray H
      exfalso
      have hsub : visited ⊆ dict.map Task.id := fun v hv =>
        (containsId_iff_mem_map dict v).mp (H.visAct v hv)
      have hle : visited.length ≤ (dict.map Task.id).length :=
        (H.visNodup.subperm hsub).length_le
      rw [List.length_map] at hle
      have := H.fuelOk
      omega
  | succ n ihn =>
      intro node visited chain gray H
      rw [chainDfs_succ]
      by_cases hv : visited.contains node = true
      · rw [if_pos hv]
        have hmem : node ∈ visited := by simpa using hv
        exact
          { ext := ⟨[], by simp⟩
            perm := H.visPerm
            nodup := H.visNodup
            sub := H.visAct
            mono := fun v hv2 => hv2
            lenMono := le_refl _
            nodeIn := hmem
            sound := fun u hu => Or.inl hu
            closed := fun u hu => Or.inl hu
            canon := H.chainCanon
            depCl := H.chainDeps }
      · rw [if_neg hv]
        have hvm : node ∉ visited := by simpa using hv
        obtain ⟨tnode, hget, htid⟩ := dictGet_of_containsId dict node H.nodeAct
        have HN : NbrsHyps dict X n node (neighbors dict node)
            (node :: visited) chain (node :: gray) :=
          { parAct := H.nodeAct
            nbrsEdge := fun d hd hcd =>
              ⟨tnode, hget, List.mem_dedup.mp (by rwa [neighbors, hget] at hd), hcd⟩
            visAct := fun v hv2 => by
              rcases List.mem_cons.mp hv2 with h | h
              · rw [h]; exact H.nodeAct
              · exact H.visAct v h
            visNodup := List.nodup_cons.mpr ⟨hvm, H.visNodup⟩
            fuelOk := by
              have := H.fuelOk
              simp only [List.length_cons]
              omega
            visPerm := (H.visPerm.cons node).trans List.perm_middle.symm
            grayPar := fun g hg => by
              rcases List.mem_cons.mp hg with h | h
              · rw [h]
                exact Relation.ReflTransGen.refl
              · exact H.grayNode g h
            grayX := fun g hg => by
              rcases List.mem_cons.mp hg with h | h
              · rw [h]; exact H.reachX
              · exact H.grayX g h
            reachX := H.reachX
            chainCanon := H.chainCanon
            chainDeps := H.chainDeps }
        have NO := chainFold_spec dict X n ihn (neighbors dict node) node
          (node :: visited) chain (node :: gray) HN
        rw [hget]
        set F := (neighbors dict node).foldl
          (fun acc dep => if containsId dict dep then chainDfs dict n dep acc else acc)
          (node :: visited, chain) with hF
        obtain ⟨d1, hd1⟩ := NO.ext
        have hAllDeps : ∀ dep, Edge dict node dep → dep ∈ F.1 := by
          rintro dep ⟨t2, hget2, hdep2, hcd2⟩
          rw [hget] at hget2
          obtain rfl : t2 = tnode := by
            exact (Option.some_inj.mp hget2).symm
          refine NO.allNbrs dep ?_ hcd2
          rw [neighbors, hget]
          exact List.mem_dedup.mpr hdep2
        refine
          { ext := ⟨d1 ++ [tnode], by
              show F.2 ++ [tnode] = chain ++ (d1 ++ [tnode])
              rw [hd1, List.append_assoc]⟩
            perm := ?_
            nodup := NO.nodup
            sub := NO.sub
            mono := fun v hv2 => NO.mono v (List.mem_cons_of_mem node hv2)
            lenMono := by
              show visited.length ≤ F.1.length
              have := NO.lenMono
              simp only [List.length_cons] at this
              omega
            nodeIn := NO.mono node (List.mem_cons_self node visited)
            sound := ?_
            closed := ?_
            canon := ?_
            depCl := ?_ }
        · show F.1.Perm ((F.2 ++ [tnode]).map Task.id ++ gray)
          have heq : (F.2 ++ [tnode]).map Task.id ++ gray =
              F.2.map Task.id ++ (node :: gray) := by
            rw [List.map_append, List.map_cons, List.map_nil, htid,
              List.append_assoc, List.singleton_append]
          rw [heq]
          exact NO.perm
        · intro u hu
          rcases NO.sound u hu with h1 | ⟨d, hd, hcd, hr⟩
          · rcases List.mem_cons.mp h1 with h2 | h2
            · exact Or.inr (h2 ▸ Relation.ReflTransGen.refl)
            · exact Or.inl h2
          · exact Or.inr (Relation.ReflTransGen.head (HN.nbrsEdge d hd hcd) hr)
        · intro u hu
          rcases NO.closed u hu with h1 | h1
          · rcases List.mem_cons.mp h1 with h2 | h2
            · subst h2
              exact Or.inr hAllDeps
            · exact Or.inl h2
          · exact Or.inr h1
        · intro x hx
          rcases List.mem_append.mp hx with h1 | h1
          · exact NO.canon x h1
          · rw [List.mem_singleton.mp h1, htid]
            exact hget
        · show depsBefore dict (F.2 ++ [tnode]) []
          rw [depsBefore_append]
          refine ⟨NO.depCl, ?_, trivial⟩
          intro dep hedge
          rw [htid] at hedge
          have hdF : dep ∈ F.1 := hAllDeps dep hedge
          have hdF2 : dep ∈ F.2.map Task.id ++ (node :: gray) :=
            (NO.perm.mem_iff).mp hdF
          rcases List.mem_append.mp hdF2 with h1 | h1
          · simpa using h1
          · exfalso
            rcases List.mem_cons.mp h1 with h2 | h2
            · subst h2
              exact hacyc dep H.reachX (Relation.TransGen.single hedge)
            · exact hacyc dep (H.grayX dep h2)
                (Relation.TransGen.tail' (H.grayNode dep h2) hedge)

/-- C7.  For an id X in the active set from which no dependency cycle is
reachable, `get_task_chain(X)` lists each task reachable from X along
`depends_on` edges exactly once (no duplicate ids, and an id appears iff
it is reachable), ends with X's own task, and places every active
dependency of any listed task strictly earlier in the list. -/
theorem get_task_chain_topo (tasks : List Task) (X : String)
    (hX : containsId (buildDict tasks) X = true)
    (hacyc : ∀ y, Reach (buildDict tasks) X y →
      ¬ Relation.TransGen (Edge (buildDict tasks)) y y) :
    ((get_dependency_chain tasks X).map Task.id).Nodup ∧
    (∀ y, (∃ t ∈ get_dependency_chain tasks X, t.id = y) ↔
      Reach (buildDict tasks) X y) ∧
    (get_dependency_chain tasks X).getLast? = dictGet (buildDict tasks) X ∧
    (∀ pre t post, get_dependency_chain tasks X = pre ++ t :: post →
      ∀ dep ∈ t.depends_on, containsId (buildDict tasks) dep = true →
        ∃ u ∈ pre, u.id = dep) := by
  set dict := buildDict tasks with hdict
  have hunfold : get_dependency_chain tasks X =
      (chainDfs dict (dict.length + 1) X ([], [])).2 := by
    rw [get_dependency_chain, if_pos hX]
  have H0 : DfsHyps dict X (dict.length + 1) X [] [] [] :=
    { nodeAct := hX
      visAct := by simp
      visNodup := List.nodup_nil
      fuelOk := by simp
      visPerm := by simp
      grayNode := by simp
      grayX := by simp
      reachX := Relation.ReflTransGen.refl
      chainCanon := by simp
      chainDeps := trivial }
  have O := chainDfs_spec dict X hacyc (dict.length + 1) X [] [] [] H0
  set out := chainDfs dict (dict.length + 1) X ([], []) with hout
  have hperm : out.1.Perm (out.2.map Task.id) := by
    have h := O.perm
    simpa using h
  have hnodupIds : (out.2.map Task.id).Nodup := hperm.nodup_iff.mp O.nodup
  have hmem_iff : ∀ y, (∃ t ∈ out.2, t.id = y) ↔ Reach dict X y := by
    intro y
    constructor
    · rintro ⟨t, ht, rfl⟩
      have h0 : t.id ∈ out.2.map Task.id := List.mem_map_of_mem _ ht
      have h1 : t.id ∈ out.1 := hperm.mem_iff.mpr h0
      rcases O.sound _ h1 with h2 | h2
      · cases h2
      · exact h2
    · intro hr
      have h1 : y ∈ out.1 := by
        induction hr with
        | refl => exact O.nodeIn
        | tail hab hbc ih =>
            rcases O.closed _ ih with h2 | h2
            · cases h2
            · exact h2 _ hbc
      have h2 : y ∈ out.2.map Task.id := hperm.mem_iff.mp h1
      obtain ⟨t, ht, htid⟩ := List.mem_map.mp h2
      exact ⟨t, ht, htid⟩
  have hlast : out.2.getLast? = dictGet dict X := by
    obtain ⟨tX, hgetX, htidX⟩ := dictGet_of_containsId dict X hX
    rw [hout, chainDfs_succ, if_neg (by simp)]
    dsimp only
    rw [hgetX]
    show (_ ++ [tX]).getLast? = some tX
    exact List.getLast?_concat _
  have hsplit : ∀ pre t post, out.2 = pre ++ t :: post →
      ∀ dep ∈ t.depends_on, containsId dict dep = true →
        ∃ u ∈ pre, u.id = dep := by
    intro pre t post hsp dep hdep hcd
    have ht_mem : t ∈ out.2 := by
      rw [hsp]
      exact List.mem_append.mpr (Or.inr (List.mem_cons_self t post))
    have hedge : Edge dict t.id dep := ⟨t, O.canon t ht_mem, hdep, hcd⟩
    rcases depsBefore_split dict pre out.2 [] t post O.depCl hsp dep hedge with
      h | h
    · cases h
    · exact h
  refine ⟨?_, ?_, ?_, ?_⟩
  · rw [hunfold]; exact hnodupIds
  · intro y; rw [hunfold]; exact hmem_iff y
  · rw [hunfold]; exact hlast
  · intro pre t post hsp
    rw [hunfold] at hsp
    exact hsplit pre t post hsp

/-- In the singleton store of `readyW` (which has no dependencies) there
are no dependency edges at all. -/
theorem no_edge_single_ready (u v : String) :
    ¬ Edge (buildDict [readyW]) u v := by
  rintro ⟨t, hget, hdep, _⟩
  have hfind : (buildDict [readyW]).find? (fun x => x.id == u) = some t := hget
  have ht : t ∈ buildDict [readyW] := List.mem_of_find?_eq_some hfind
  have ht2 : t ∈ [readyW] := mem_buildDict_sub _ t ht
  rw [List.mem_singleton] at ht2
  subst ht2
  simp [readyW] at hdep

/-- C7 witness: the singleton store, rooted at its only task. -/
theorem get_task_chain_topo_witness :
    ((get_dependency_chain [readyW] "w").map Task.id).Nodup ∧
    (∀ y, (∃ t ∈ get_dependency_chain [readyW] "w", t.id = y) ↔
      Reach (buildDict [readyW]) "w" y) ∧
    (get_dependency_chain [readyW] "w").getLast? =
      dictGet (buildDict [readyW]) "w" ∧
    (∀ pre t post, get_dependency_chain [readyW] "w" = pre ++ t :: post →
      ∀ dep ∈ t.depends_on, containsId (buildDict [readyW]) dep = true →
        ∃ u ∈ pre, u.id = dep) :=
  get_task_chain_topo [readyW] "w" (by decide)
    (fun y _ hcyc => by
      cases hcyc with
      | single h => exact no_edge_single_ready _ _ h
      | tail _ h => exact no_edge_single_ready _ _ h)

end MissionControl
